import Mathlib

/-!
Verification of the bun-plugin-coffeescript adapter (src/index.ts).

The adapter registers one onLoad filter with the Bun bundler and routes each
matched path either to a CSON loader or to a CoffeeScript loader.  The shallow
embedding below renders the JavaScript module as pure Lean functions:

* JavaScript objects (the configuration bag, the merged compiler options, the
  parsed CSON trees) become entry lists in insertion order with unique keys.
* The ambient effects (Bun.file(path).text(), CSON.parse, coffeescript compile)
  become fields of an explicit environment; each may fail, rendered with
  Except.  Await / throw become the usual explicit error-propagating matches.
* The object literal with a spread, written { filename: path, ...opts } in the
  source, is rendered by folding a JavaScript property-set over the spread
  entries: a later assignment to an existing key overwrites its value in
  place, a new key is appended.
-/

namespace BunCoffee

/-- JavaScript values as they occur in configuration bags and parsed CSON
trees: scalars, arrays, and objects (entry lists in insertion order). -/
inductive Value where
  | str (s : String)
  | num (n : Int)
  | bool (b : Bool)
  | null
  | list (vs : List Value)
  | obj (entries : List (String × Value))
deriving Repr

/-- A JavaScript object, by its enumerable own entries in insertion order.
Entry lists produced by the JavaScript runtime have pairwise distinct keys;
statements that need this assume WellFormed. -/
abbrev Obj := List (String × Value)

/-- Keys of the bag are pairwise distinct, as for every real JavaScript
object. -/
def WellFormed (o : Obj) : Prop := (o.map Prod.fst).Nodup

/-- Object.entries: the own enumerable entries in insertion order. -/
def entries (o : Obj) : List (String × Value) := o

/-- Whether the object has an own property named k. -/
def hasKey (o : Obj) (k : String) : Bool := o.any (fun kv => decide (kv.1 = k))

/-- JavaScript property assignment o[k] = v: overwriting an existing key
keeps it at its original position; a new key is appended at the end. -/
def setProp (o : Obj) (k : String) (v : Value) : Obj :=
  if hasKey o k then o.map (fun kv => if kv.1 = k then (k, v) else kv)
  else o ++ [(k, v)]

/-- Property lookup o[k]: the value at the first (on a well-formed object,
the only) entry named k. -/
def getProp : Obj → String → Option Value
  | [], _ => none
  | kv :: tl, k => if kv.1 = k then some kv.2 else getProp tl k

/-- Spreading src into an object that already holds the entries of base:
each entry of src is assigned left to right, so src wins on key clashes. -/
def spreadAfter (base src : Obj) : Obj :=
  src.foldl (fun acc kv => setProp acc kv.1 kv.2) base

/-- Object.fromEntries: build an object by assigning the pairs in order. -/
def fromEntries (l : List (String × Value)) : Obj := spreadAfter [] l

/-- The omit helper of src/index.ts: Object.fromEntries of the entries of obj
filtered to the keys not contained in the given key list. -/
def «omit» (obj : Obj) (keys : List String) : Obj :=
  fromEntries ((entries obj).filter (fun kv => !(keys.contains kv.1)))

/-- JavaScript String.prototype.endsWith, on the underlying character
sequences. -/
def endsWith (s t : String) : Bool := t.data.isSuffixOf s.data

/-- The alternatives of the registration pattern. -/
def filterAlternatives : List String := ["coffee", "cson", "litcoffee"]

/-- Denotation of the registration regular expression, written in the source
as a literal dot, the alternation (coffee|cson|litcoffee), and the
end-of-string anchor: the path matches when some (possibly empty) run of
characters is followed by a dot, one alternative, and the end of the path. -/
def filterMatches (path : String) : Prop :=
  ∃ (pre : List Char) (alt : String),
    alt ∈ filterAlternatives ∧ path.data = pre ++ ('.' :: alt.data)

/-- Errors thrown by the runtime, the CSON parser, or the compiler; the
adapter never inspects them, so their carrier is just a message. -/
abbrev Err := String

/-- The ambient effects the module imports: the Bun file reader, CSON.parse,
and the coffeescript compile function.  Each can fail. -/
structure Env where
  readFile : String → Except Err String
  csonParse : String → Except Err Value
  compile : String → Obj → Except Err String

/-- Result shape for compiled source text. -/
structure OnLoadResultSourceCode where
  contents : String
  loader : String
deriving Repr

/-- Result shape for a structured data export. -/
structure OnLoadResultObject where
  exports : Value
  loader : String
deriving Repr

/-- The union of the two result shapes the callback can resolve with. -/
inductive OnLoadResult where
  | sourceCode (r : OnLoadResultSourceCode)
  | object (r : OnLoadResultObject)
deriving Repr

/-- loadCson from src/index.ts: read the file, parse it with CSON.parse, and
wrap the parsed value with the object loader tag.  A read or parse error
rejects the promise with that error. -/
def loadCson (env : Env) (path : String) : Except Err OnLoadResultObject :=
  match env.readFile path with
  | .error e => .error e
  | .ok fileContents =>
    match env.csonParse fileContents with
    | .error e => .error e
    | .ok exports => .ok { exports := exports, loader := "object" }

/-- The options object literal the script loader passes to compile, written
{ filename: path, ...compilerOptions } in the source. -/
def compileOptionsFor (path : String) (compilerOptions : Obj) : Obj :=
  spreadAfter [("filename", Value.str path)] compilerOptions

/-- loadCoffeeScript from src/index.ts: read the file, drop the inlineMap key
from the options, compile with the filename field and the sanitized options
spread after it, and wrap the compiled text with the js loader tag.  A read
or compile error rejects the promise with that error. -/
def loadCoffeeScript (env : Env) (path : String) (options : Obj) :
    Except Err OnLoadResultSourceCode :=
  match env.readFile path with
  | .error e => .error e
  | .ok fileContents =>
    let compilerOptions := «omit» options ["inlineMap"]
    match env.compile fileContents (compileOptionsFor path compilerOptions) with
    | .error e => .error e
    | .ok contents => .ok { contents := contents, loader := "js" }

/-- The callback registered by setup: paths ending in .cson go to loadCson,
every other path goes to loadCoffeeScript.  The two returned promises are
injected into the union result type. -/
def onLoadCallback (env : Env) (options : Obj) (path : String) :
    Except Err OnLoadResult :=
  if endsWith path ".cson" then
    match loadCson env path with
    | .error e => .error e
    | .ok r => .ok (OnLoadResult.object r)
  else
    match loadCoffeeScript env path options with
    | .error e => .error e
    | .ok r => .ok (OnLoadResult.sourceCode r)

/-- One filter and callback pair handed to builder.onLoad. -/
structure Registration where
  filter : String → Prop
  callback : String → Except Err OnLoadResult

/-- The value returned by the exported factory; setup is rendered by the list
of registrations it performs on the builder, in order. -/
structure BunPlugin where
  name : String
  registrations : List Registration

/-- The exported factory of src/index.ts: the options argument defaults to
the empty bag, the name is fixed, and setup performs exactly one
builder.onLoad call, registering the extension filter and the dispatching
callback. -/
def Plugin (env : Env) (options : Obj := []) : BunPlugin :=
  { name := "bun-plugin-coffeescript"
    registrations :=
      [{ filter := filterMatches
         callback := onLoadCallback env options }] }

/-- A sequence of invocations of the registered callback, threading the
registration-time options bag through as state.  The source never assigns to
or deletes from the bag (the sanitizer filters a fresh entry list and the
spread copies), so each invocation passes the bag through unchanged. -/
def runLoads (env : Env) (options : Obj) :
    List String → List (Except Err OnLoadResult) × Obj
  | [] => ([], options)
  | p :: ps =>
    let r := onLoadCallback env options p
    let rest := runLoads env options ps
    (r :: rest.1, rest.2)

/-- A small file system for exercising the loaders on concrete inputs. -/
def sampleRead : String → Except Err String := fun path =>
  if path = "a.cson" then .ok "key: 1"
  else if path = "a.coffee" then .ok "x = 1"
  else if path = "file.txt" then .ok "x = 1"
  else .error "ENOENT"

/-- A second file system that differs from sampleRead only away from the
paths of interest. -/
def sampleReadAlt : String → Except Err String := fun path =>
  if path = "a.cson" then .ok "key: 1"
  else if path = "a.coffee" then .ok "x = 1"
  else if path = "other.coffee" then .ok "y = 2"
  else .error "ENOENT"

/-- A concrete stand-in for CSON.parse on the sample inputs. -/
def sampleParse : String → Except Err Value := fun s =>
  if s = "key: 1" then .ok (Value.obj [("key", Value.num 1)])
  else .error "CSON parse error"

/-- A concrete stand-in for the compiler on the sample inputs. -/
def sampleCompile : String → Obj → Except Err String := fun s _ =>
  if s = "x = 1" then .ok "var x = 1;" else .error "compile error"

/-- A compiler that reports back the filename field it was handed, used to
observe which filename reaches the compiler. -/
def spyCompile : String → Obj → Except Err String := fun _ opts =>
  match getProp opts "filename" with
  | some (Value.str f) => .ok f
  | _ => .error "no filename"

/-- Sample runtime. -/
def sampleEnv : Env :=
  { readFile := sampleRead, csonParse := sampleParse, compile := sampleCompile }

/-- Sample runtime over the second file system. -/
def sampleEnvAlt : Env :=
  { readFile := sampleReadAlt, csonParse := sampleParse, compile := sampleCompile }

/-- Runtime whose compiler echoes the filename it receives. -/
def spyEnv : Env :=
  { readFile := fun _ => .ok "x = 1", csonParse := sampleParse, compile := spyCompile }

theorem endsWith_iff_data (s t : String) : endsWith s t = true ↔ t.data <:+ s.data := by
  simp [endsWith]

theorem filterMatches_iff (path : String) :
    filterMatches path ↔
      (endsWith path ".coffee" || endsWith path ".litcoffee" || endsWith path ".cson") = true := by
  have hco : ('.' :: "coffee".data) = ".coffee".data := by decide
  have hli : ('.' :: "litcoffee".data) = ".litcoffee".data := by decide
  have hcs : ('.' :: "cson".data) = ".cson".data := by decide
  simp only [Bool.or_eq_true, endsWith_iff_data]
  constructor
  · rintro ⟨pre, alt, halt, hdata⟩
    simp only [filterAlternatives, List.mem_cons, List.mem_singleton,
      List.not_mem_nil, or_false] at halt
    rcases halt with rfl | rfl | rfl
    · exact Or.inl (Or.inl ⟨pre, by rw [hco] at hdata; exact hdata.symm⟩)
    · exact Or.inr ⟨pre, by rw [hcs] at hdata; exact hdata.symm⟩
    · exact Or.inl (Or.inr ⟨pre, by rw [hli] at hdata; exact hdata.symm⟩)
  · rintro ((⟨t, ht⟩ | ⟨t, ht⟩) | ⟨t, ht⟩)
    · exact ⟨t, "coffee", by simp [filterAlternatives], by rw [hco, ht]⟩
    · exact ⟨t, "litcoffee", by simp [filterAlternatives], by rw [hli, ht]⟩
    · exact ⟨t, "cson", by simp [filterAlternatives], by rw [hcs, ht]⟩

theorem getProp_append (o₁ o₂ : Obj) (k : String) :
    getProp (o₁ ++ o₂) k = (getProp o₁ k).or (getProp o₂ k) := by
  induction o₁ with
  | nil => simp [getProp]
  | cons kv tl ih =>
    by_cases hak : kv.1 = k
    · simp [getProp, hak]
    · simp [getProp, hak, ih]

theorem getProp_eq_none_of_hasKey_eq_false (o : Obj) (k : String)
    (h : hasKey o k = false) : getProp o k = none := by
  induction o with
  | nil => rfl
  | cons kv tl ih =>
    simp only [hasKey, List.any_cons, Bool.or_eq_false_iff] at h
    have h1 : ¬kv.1 = k := of_decide_eq_false h.1
    simp [getProp, h1, ih (by simpa [hasKey] using h.2)]

theorem getProp_map_overwrite_self (k : String) (v : Value) (o : Obj)
    (h : hasKey o k = true) :
    getProp (o.map (fun kv => if kv.1 = k then (k, v) else kv)) k = some v := by
  induction o with
  | nil => simp [hasKey] at h
  | cons kv tl ih =>
    by_cases hak : kv.1 = k
    · simp [getProp, hak]
    · have htl : hasKey tl k = true := by
        simp only [hasKey, List.any_cons, Bool.or_eq_true] at h
        rcases h with h | h
        · exact absurd h (by simp_all)
        · simpa [hasKey] using h
      simp [getProp, hak, ih htl]

theorem getProp_map_overwrite_ne (k k₂ : String) (v : Value) (o : Obj) (hne : k₂ ≠ k) :
    getProp (o.map (fun kv => if kv.1 = k then (k, v) else kv)) k₂ = getProp o k₂ := by
  induction o with
  | nil => rfl
  | cons kv tl ih =>
    by_cases hak : kv.1 = k
    · have hkk : ¬k = k₂ := fun hk => hne hk.symm
      simp [getProp, hak, hkk, ih]
    · by_cases h2 : kv.1 = k₂
      · simp [getProp, hak, h2, hne]
      · simp [getProp, hak, h2, ih]

theorem getProp_setProp_self (o : Obj) (k : String) (v : Value) :
    getProp (setProp o k v) k = some v := by
  by_cases h : hasKey o k
  · simp [setProp, h, getProp_map_overwrite_self k v o h]
  · have hfalse : hasKey o k = false := by simpa using h
    have hnone := getProp_eq_none_of_hasKey_eq_false o k hfalse
    simp [setProp, hfalse, getProp_append, hnone, getProp]

theorem getProp_setProp_ne (o : Obj) (k k₂ : String) (v : Value) (hne : k₂ ≠ k) :
    getProp (setProp o k v) k₂ = getProp o k₂ := by
  by_cases h : hasKey o k
  · simp [setProp, h, getProp_map_overwrite_ne k k₂ v o hne]
  · have hkk : ¬k = k₂ := fun hk => hne hk.symm
    have hfalse : hasKey o k = false := by simpa using h
    simp [setProp, hfalse, getProp_append, getProp, hkk]

theorem getProp_spreadAfter_of_all_ne (k : String) :
    ∀ (src base : Obj), (∀ kv ∈ src, kv.1 ≠ k) →
      getProp (spreadAfter base src) k = getProp base k
  | [], _, _ => rfl
  | kv :: tl, base, h => by
    have hstep : spreadAfter base (kv :: tl) = spreadAfter (setProp base kv.1 kv.2) tl := rfl
    rw [hstep, getProp_spreadAfter_of_all_ne k tl _ (fun x hx => h x (List.mem_cons_of_mem kv hx)),
      getProp_setProp_ne base kv.1 k kv.2 (fun hk => h kv (List.mem_cons_self kv tl) hk.symm)]

theorem getProp_spreadAfter_nodup (k : String) :
    ∀ (src base : Obj), (src.map Prod.fst).Nodup →
      getProp (spreadAfter base src) k =
        (match getProp src k with
         | some v => some v
         | none => getProp base k)
  | [], base, _ => rfl
  | (a, b) :: tl, base, h => by
    have hnd : (tl.map Prod.fst).Nodup := (List.nodup_cons.mp h).2
    have hnotmem : a ∉ tl.map Prod.fst := (List.nodup_cons.mp h).1
    have hstep : spreadAfter base ((a, b) :: tl) = spreadAfter (setProp base a b) tl := rfl
    rw [hstep, getProp_spreadAfter_nodup k tl _ hnd]
    by_cases hak : a = k
    · subst hak
      have htl : getProp tl a = none := by
        apply getProp_eq_none_of_hasKey_eq_false
        simp only [hasKey, List.any_eq_false, decide_eq_false_iff_not]
        intro kv hkv he
        have he2 : kv.1 = a := of_decide_eq_true he
        exact hnotmem (by rw [← he2]; exact List.mem_map_of_mem Prod.fst hkv)
      simp [getProp, htl, getProp_setProp_self]
    · have hhead : getProp ((a, b) :: tl) k = getProp tl k := by simp [getProp, hak]
      rw [hhead, getProp_setProp_ne base a k b (fun hk => hak hk.symm)]

theorem spreadAfter_eq_append :
    ∀ (src base : Obj), (∀ kv ∈ src, hasKey base kv.1 = false) →
      (src.map Prod.fst).Nodup → spreadAfter base src = base ++ src
  | [], base, _, _ => by simp [spreadAfter]
  | (a, b) :: tl, base, h, hnd => by
    have hbase : hasKey base a = false := h (a, b) (List.mem_cons_self _ _)
    have hset : setProp base a b = base ++ [(a, b)] := by simp [setProp, hbase]
    have hstep : spreadAfter base ((a, b) :: tl) = spreadAfter (setProp base a b) tl := rfl
    have hnotmem : a ∉ tl.map Prod.fst := (List.nodup_cons.mp hnd).1
    have hrest : ∀ kv ∈ tl, hasKey (base ++ [(a, b)]) kv.1 = false := by
      intro kv hkv
      have h1 : hasKey base kv.1 = false := h kv (List.mem_cons_of_mem _ hkv)
      have hm : kv.1 ∈ tl.map Prod.fst := List.mem_map_of_mem Prod.fst hkv
      have h2 : ¬a = kv.1 := fun he => hnotmem (by rw [he]; exact hm)
      unfold hasKey at h1 ⊢
      simp [List.any_append, h1, h2]
    rw [hstep, hset, spreadAfter_eq_append tl (base ++ [(a, b)]) hrest (List.nodup_cons.mp hnd).2,
      List.append_assoc]
    rfl

theorem omit_eq_filter (obj : Obj) (keys : List String) (h : WellFormed obj) :
    «omit» obj keys = obj.filter (fun kv => !(keys.contains kv.1)) := by
  have hsub : (obj.filter (fun kv => !(keys.contains kv.1))).Sublist obj :=
    List.filter_sublist obj
  have hnd : ((obj.filter (fun kv => !(keys.contains kv.1))).map Prod.fst).Nodup :=
    List.Nodup.sublist (hsub.map Prod.fst) h
  unfold «omit» fromEntries entries
  rw [spreadAfter_eq_append _ [] (fun kv _ => rfl) hnd]
  rfl

theorem omit_wellFormed (obj : Obj) (keys : List String) (h : WellFormed obj) :
    WellFormed («omit» obj keys) := by
  rw [omit_eq_filter obj keys h]
  exact List.Nodup.sublist ((List.filter_sublist obj).map Prod.fst) h

theorem mem_omit_iff (obj : Obj) (kv : String × Value) (h : WellFormed obj) :
    kv ∈ «omit» obj ["inlineMap"] ↔ kv ∈ obj ∧ kv.1 ≠ "inlineMap" := by
  rw [omit_eq_filter obj _ h, List.mem_filter]
  constructor
  · rintro ⟨h1, h2⟩
    refine ⟨h1, ?_⟩
    simpa [List.contains] using h2
  · rintro ⟨h1, h2⟩
    refine ⟨h1, ?_⟩
    simpa [List.contains] using h2

/-- Shape discriminator for the union result type. -/
def isObjectResult : OnLoadResult → Bool
  | .object _ => true
  | .sourceCode _ => false

/-- The loader tag carried by a result of either shape. -/
def loaderOf : OnLoadResult → String
  | .object o => o.loader
  | .sourceCode s => s.loader

theorem loadCson_ok_loader (env : Env) (path : String) (o : OnLoadResultObject)
    (h : loadCson env path = .ok o) : o.loader = "object" := by
  cases h1 : env.readFile path with
  | error e => simp only [loadCson, h1] at h; cases h
  | ok c =>
    cases h2 : env.csonParse c with
    | error e => simp only [loadCson, h1, h2] at h; cases h
    | ok v =>
      simp only [loadCson, h1, h2, Except.ok.injEq] at h
      rw [← h]

theorem loadCoffeeScript_ok_loader (env : Env) (path : String) (options : Obj)
    (s : OnLoadResultSourceCode) (h : loadCoffeeScript env path options = .ok s) :
    s.loader = "js" := by
  cases h1 : env.readFile path with
  | error e => simp only [loadCoffeeScript, h1] at h; cases h
  | ok c =>
    cases h2 : env.compile c (compileOptionsFor path («omit» options ["inlineMap"])) with
    | error e => simp only [loadCoffeeScript, h1, h2] at h; cases h
    | ok t =>
      simp only [loadCoffeeScript, h1, h2, Except.ok.injEq] at h
      rw [← h]

/-- C2: the registered filter pattern matches a path string if and only if it
ends with ".coffee", ".litcoffee", or ".cson"; a path whose final segment
merely contains but does not end with one of these suffixes (for example
"app.coffee.bak" or "app.coffees") therefore does not match, since the right
hand side computes to false there. -/
theorem filter_regex_matches_iff_recognized_suffix :
    ∀ path : String,
      filterMatches path ↔
        (endsWith path ".coffee" || endsWith path ".litcoffee" || endsWith path ".cson") = true :=
  fun path => filterMatches_iff path

/-- Witness for C2 at the concrete path "app.coffee". -/
theorem filter_regex_matches_witness :
    (endsWith "app.coffee" ".coffee" || endsWith "app.coffee" ".litcoffee" ||
      endsWith "app.coffee" ".cson") = true :=
  (filter_regex_matches_iff_recognized_suffix "app.coffee").mp
    ⟨['a', 'p', 'p'], "coffee", by decide, by decide⟩

/-- C3: for every matched path, a resolved callback result is the object
shape with loader tag "object" when the path ends with ".cson", and otherwise
the source-text shape with loader tag "js". -/
theorem callback_result_shape_by_suffix (env : Env) (options : Obj) (path : String)
    (_hmatch : filterMatches path) :
    (endsWith path ".cson" = true →
      ∀ r, onLoadCallback env options path = .ok r →
        isObjectResult r = true ∧ loaderOf r = "object") ∧
    (endsWith path ".cson" = false →
      ∀ r, onLoadCallback env options path = .ok r →
        isObjectResult r = false ∧ loaderOf r = "js") := by
  constructor
  · intro hc r hr
    simp only [onLoadCallback, hc, if_true] at hr
    cases hl : loadCson env path with
    | error e => rw [hl] at hr; cases hr
    | ok o =>
      rw [hl] at hr
      injection hr with hr2
      rw [← hr2]
      exact ⟨rfl, loadCson_ok_loader env path o hl⟩
  · intro hc r hr
    simp only [onLoadCallback, hc, Bool.false_eq_true, if_false] at hr
    cases hl : loadCoffeeScript env path options with
    | error e => rw [hl] at hr; cases hr
    | ok s =>
      rw [hl] at hr
      injection hr with hr2
      rw [← hr2]
      exact ⟨rfl, loadCoffeeScript_ok_loader env path options s hl⟩

/-- Witness for C3 at the concrete path "a.cson" under the sample runtime. -/
theorem callback_result_shape_witness :
    isObjectResult
        (OnLoadResult.object { exports := Value.obj [("key", Value.num 1)], loader := "object" }) =
      true ∧
    loaderOf
        (OnLoadResult.object { exports := Value.obj [("key", Value.num 1)], loader := "object" }) =
      "object" :=
  (callback_result_shape_by_suffix sampleEnv [] "a.cson"
      ⟨['a'], "cson", by decide, by decide⟩).1 (by decide) _ rfl

/-- C4: on a well-formed configuration bag, the sanitizer keeps exactly the
entries not named inlineMap, unchanged and in order (the result is a sublist
of the bag), and the options object forwarded to the compiler never carries
an inlineMap key.  The sanitizer is a total function, so it cannot fail. -/
theorem omit_drops_inlineMap_only (options : Obj) (h : WellFormed options) :
    (∀ kv, kv ∈ «omit» options ["inlineMap"] ↔ kv ∈ options ∧ kv.1 ≠ "inlineMap") ∧
    List.Sublist («omit» options ["inlineMap"]) options ∧
    (∀ path, getProp (compileOptionsFor path («omit» options ["inlineMap"])) "inlineMap" = none) := by
  refine ⟨fun kv => mem_omit_iff options kv h, ?_, ?_⟩
  · rw [omit_eq_filter options _ h]
    exact List.filter_sublist options
  · intro path
    unfold compileOptionsFor
    rw [getProp_spreadAfter_of_all_ne "inlineMap" («omit» options ["inlineMap"]) _
      (fun kv hkv => ((mem_omit_iff options kv h).mp hkv).2)]
    have hne : ¬("filename" : String) = "inlineMap" := by decide
    simp [getProp, hne]

/-- Witness for C4 on a bag that does supply inlineMap. -/
theorem omit_drops_inlineMap_only_witness :
    getProp
        (compileOptionsFor "a.coffee"
          («omit» [("bare", Value.bool true), ("inlineMap", Value.bool true)] ["inlineMap"]))
        "inlineMap" =
      none :=
  (omit_drops_inlineMap_only [("bare", Value.bool true), ("inlineMap", Value.bool true)]
      (by unfold WellFormed; decide)).2.2 "a.coffee"

/-- C5: a failing file read makes the callback reject with that error
unmodified; a failing CSON parse on a .cson path rejects with the parse
error; a failing compile on any other path rejects with the compile error.
In particular a missing file always rejects and never resolves. -/
theorem load_errors_propagate_unmodified (env : Env) (options : Obj) (path : String) (e : Err) :
    (env.readFile path = .error e → onLoadCallback env options path = .error e) ∧
    (∀ c, env.readFile path = .ok c → endsWith path ".cson" = true →
      env.csonParse c = .error e → onLoadCallback env options path = .error e) ∧
    (∀ c, env.readFile path = .ok c → endsWith path ".cson" = false →
      env.compile c (compileOptionsFor path («omit» options ["inlineMap"])) = .error e →
      onLoadCallback env options path = .error e) := by
  refine ⟨?_, ?_, ?_⟩
  · intro h
    by_cases hc : endsWith path ".cson" = true
    · simp [onLoadCallback, loadCson, hc, h]
    · simp only [Bool.not_eq_true] at hc
      simp [onLoadCallback, loadCoffeeScript, hc, h]
  · intro c h1 h2 h3
    simp [onLoadCallback, loadCson, h1, h2, h3]
  · intro c h1 h2 h3
    simp [onLoadCallback, loadCoffeeScript, h1, h2, h3]

/-- Witness for C5: a missing input file rejects with the read error. -/
theorem load_errors_propagate_witness :
    onLoadCallback sampleEnv [] "missing.coffee" = .error "ENOENT" :=
  (load_errors_propagate_unmodified sampleEnv [] "missing.coffee" "ENOENT").1 rfl

/-- C6: on a .cson path whose read and parse succeed, the callback resolves
with the object shape whose exports field is exactly the value the parser
returned, untransformed, and the loader tag "object". -/
theorem cson_exports_passed_verbatim (env : Env) (options : Obj) (path : String)
    (c : String) (v : Value) (hpath : endsWith path ".cson" = true)
    (hread : env.readFile path = .ok c) (hparse : env.csonParse c = .ok v) :
    onLoadCallback env options path =
      .ok (OnLoadResult.object { exports := v, loader := "object" }) := by
  simp [onLoadCallback, loadCson, hpath, hread, hparse]

/-- Witness for C6 at the concrete path "a.cson". -/
theorem cson_exports_passed_verbatim_witness :
    onLoadCallback sampleEnv [] "a.cson" =
      .ok (OnLoadResult.object
        { exports := Value.obj [("key", Value.num 1)], loader := "object" }) :=
  cson_exports_passed_verbatim sampleEnv [] "a.cson" "key: 1"
    (Value.obj [("key", Value.num 1)]) (by decide) rfl rfl

/-- C7: the callback output is a function of the file contents at the given
path and of the fixed external parse and compile functions alone: two
invocations under runtimes that agree on the read of that path (the rest of
the file system may differ) produce identical results.  The adapter keeps no
mutable state between invocations and the environment carries no clock. -/
theorem callback_deterministic (env₁ env₂ : Env) (options : Obj) (path : String)
    (hread : env₁.readFile path = env₂.readFile path)
    (hparse : env₁.csonParse = env₂.csonParse)
    (hcompile : env₁.compile = env₂.compile) :
    onLoadCallback env₁ options path = onLoadCallback env₂ options path := by
  unfold onLoadCallback loadCson loadCoffeeScript
  rw [hread, hparse, hcompile]

/-- Witness for C7: the two sample runtimes agree at "a.coffee" though their
file systems differ elsewhere. -/
theorem callback_deterministic_witness :
    onLoadCallback sampleEnv [] "a.coffee" = onLoadCallback sampleEnvAlt [] "a.coffee" :=
  callback_deterministic sampleEnv sampleEnvAlt [] "a.coffee" rfl rfl rfl

/-- C8: for every options argument, and likewise when the argument is
omitted and defaults to the empty bag, the factory returns a plugin named
"bun-plugin-coffeescript" whose setup registers exactly one filter and
callback pair. -/
theorem plugin_factory_fixed_name_single_registration (env : Env) (options : Obj) :
    (Plugin env options).name = "bun-plugin-coffeescript" ∧
    (Plugin env options).registrations.length = 1 ∧
    (Plugin env).name = "bun-plugin-coffeescript" ∧
    (Plugin env).registrations.length = 1 :=
  ⟨rfl, rfl, rfl, rfl⟩

/-- C9: across any sequence of load invocations, the registration-time
options bag is left unchanged, and every invocation sees the original bag:
the sanitizer filters a fresh entry list instead of deleting keys in
place, so no step of the run rewrites the shared bag. -/
theorem options_bag_unchanged_across_loads (env : Env) (options : Obj) :
    ∀ paths : List String,
      (runLoads env options paths).2 = options ∧
      (runLoads env options paths).1 = paths.map (onLoadCallback env options)
  | [] => ⟨rfl, rfl⟩
  | p :: ps => by
    obtain ⟨h1, h2⟩ := options_bag_unchanged_across_loads env options ps
    simp [runLoads, h1, h2]

/-- C10: the callback branches only on whether the path ends in .cson and
never re-applies the registration filter: every other path, recognized
extension or not, is handed to the CoffeeScript loader, and when the read
succeeds its contents go to the compiler. -/
theorem non_cson_path_sent_to_compiler (env : Env) (options : Obj) (path : String)
    (h : endsWith path ".cson" = false) :
    (onLoadCallback env options path =
      match loadCoffeeScript env path options with
      | .error e => .error e
      | .ok r => .ok (OnLoadResult.sourceCode r)) ∧
    (∀ c, env.readFile path = .ok c →
      onLoadCallback env options path =
        match env.compile c (compileOptionsFor path («omit» options ["inlineMap"])) with
        | .error e => .error e
        | .ok t => .ok (OnLoadResult.sourceCode { contents := t, loader := "js" })) := by
  constructor
  · simp [onLoadCallback, h]
  · intro c hc
    cases hcomp : env.compile c (compileOptionsFor path («omit» options ["inlineMap"])) with
    | error e => simp [onLoadCallback, loadCoffeeScript, h, hc, hcomp]
    | ok t => simp [onLoadCallback, loadCoffeeScript, h, hc, hcomp]

/-- Witness for C10: the paths "file.txt" is outside the three recognized
extensions, yet its contents are compiled. -/
theorem non_cson_path_sent_to_compiler_witness :
    onLoadCallback sampleEnv [] "file.txt" =
      .ok (OnLoadResult.sourceCode { contents := "var x = 1;", loader := "js" }) := by
  have h := (non_cson_path_sent_to_compiler sampleEnv [] "file.txt" (by decide)).2 "x = 1" rfl
  exact h

/-- C1 counterexample: with a bag supplying a filename key, the options the
compiler receives carry the user value "spoof", not the input path
"a.coffee"; the echoing compiler observes exactly that value.  The spread
comes after the explicit filename field, so the user key wins the merge. -/
theorem compile_filename_user_override :
    getProp
        (compileOptionsFor "a.coffee" («omit» [("filename", Value.str "spoof")] ["inlineMap"]))
        "filename" =
      some (Value.str "spoof") ∧
    loadCoffeeScript spyEnv "a.coffee" [("filename", Value.str "spoof")] =
      .ok { contents := "spoof", loader := "js" } :=
  ⟨rfl, rfl⟩

/-- C1 amended: the filename field the compiler receives defaults to the
input path and equals it whenever the sanitized bag carries no filename key;
a user-supplied filename key overrides it, since the spread is applied after
the explicit field. -/
theorem compile_filename_defaults_to_path (path : String) (options : Obj)
    (h : WellFormed options) :
    getProp (compileOptionsFor path («omit» options ["inlineMap"])) "filename" =
      (match getProp («omit» options ["inlineMap"]) "filename" with
       | some v => some v
       | none => some (Value.str path)) := by
  have hnd : WellFormed («omit» options ["inlineMap"]) := omit_wellFormed options _ h
  unfold compileOptionsFor
  rw [getProp_spreadAfter_nodup "filename" («omit» options ["inlineMap"]) _ hnd]
  cases getProp («omit» options ["inlineMap"]) "filename" <;> simp [getProp]

/-- Witness for the amended C1, on a bag that does override the filename. -/
theorem compile_filename_defaults_to_path_witness :
    getProp
        (compileOptionsFor "a.coffee" («omit» [("filename", Value.str "spoof")] ["inlineMap"]))
        "filename" =
      (match getProp («omit» [("filename", Value.str "spoof")] ["inlineMap"]) "filename" with
       | some v => some v
       | none => some (Value.str "a.coffee")) :=
  compile_filename_defaults_to_path "a.coffee" [("filename", Value.str "spoof")]
    (by unfold WellFormed; decide)

end BunCoffee
